import Mathlib

/-!
Verification of the chipmunk grabber / session core.

Shallow embedding of `processor/src/grabber.rs` and
`rs-bindings/src/js/session.rs`.  Files are modelled as `List Char`
(one `Char` per byte), the filesystem read path as pure list slicing,
`u64` values as `Nat` with explicit `% 2^64` where wrap-around matters,
and fallible operations as `Except`/`Option`.  Recursive loops carry an
explicit fuel argument (always called with enough fuel, as proved where
needed) so that every definition is executable by kernel reduction.
-/

namespace Chipmunk

/-- `ByteRange` from grabber.rs: half-open range over file bytes.
`stop` stands for the Rust field `end` (a Lean keyword). -/
structure ByteRange where
  start : Nat
  stop : Nat
deriving DecidableEq, Repr

/-- `LineRange` from grabber.rs: half-open range over line indices.
`stop` stands for the Rust field `end`. -/
structure LineRange where
  start : Nat
  stop : Nat
deriving DecidableEq, Repr

/-- `Slot` from grabber.rs: a contiguous byte segment together with the
range of lines whose first byte lies in it. -/
structure Slot where
  bytes : ByteRange
  lines : LineRange
deriving DecidableEq, Repr

/-- Default slot value used for out-of-bounds list reads in the model
(the Rust code indexes only in bounds). -/
def defSlot : Slot := ⟨⟨0, 0⟩, ⟨0, 0⟩⟩

/-- `GrabMetadata` from grabber.rs. -/
structure GrabMetadata where
  slots : List Slot
  line_count : Nat
deriving DecidableEq, Repr

/-- `ComputationResult` from indexer_base::progress. -/
inductive ComputationResult (α : Type) where
  | item (i : α)
  | stopped
deriving DecidableEq, Repr

/-- `GrabError` from grabber.rs. -/
inductive GrabError where
  | Config (msg : String)
  | Communication (msg : String)
  | IoOperation
  | InvalidRange (r : LineRange)
  | Interrupted
deriving DecidableEq, Repr

/-- `GrabbedElement`.  `source_id` and `content` are the grabber.rs
fields; `row` and `pos` are modelled from the spec (§3): optional
original-set row and original-file line index, populated only by the
search pipeline (session.rs sets them in `grab_search`). -/
structure GrabbedElement where
  source_id : String
  content : List Char
  row : Option Nat
  pos : Option Nat
deriving DecidableEq, Repr

/-- `GrabbedContent` from grabber.rs. -/
structure GrabbedContent where
  grabbed_elements : List GrabbedElement
deriving DecidableEq, Repr

/-- `Grabber` from grabber.rs.  The `path` field of the Rust struct is
replaced by the contents of the file it refers to (`file`), which is how
the filesystem is represented in this embedding. -/
structure Grabber where
  source_id : String
  file : List Char
  metadata : Option GrabMetadata
  input_file_size : Nat
  last_line_empty : Bool
deriving DecidableEq, Repr

/-- `DEFAULT_SLOT_SIZE` from grabber.rs line 41: `64 * 1024usize`. -/
def DEFAULT_SLOT_SIZE : Nat := 64 * 1024

/-- The size of the read buffer actually allocated by
`create_metadata_for_file` (grabber.rs line 284): `vec![0; 64 * 1000usize]`.
Note this is NOT `DEFAULT_SLOT_SIZE`. -/
def metadataBufferSize : Nat := 64 * 1000

/-- Line-separator predicate used by `get_entries`'s
`split(|c| c == '\n' || c == '\r')`. -/
def isSep (c : Char) : Bool := c = '\n' || c = '\r'

/-- Rust `str::split` on the separator predicate: splitting the empty
string yields one empty piece, and every separator occurrence starts a
new piece. -/
def splitSep : List Char → List (List Char)
  | [] => [[]]
  | c :: rest =>
    if isSep c then [] :: splitSep rest
    else
      match splitSep rest with
      | [] => [[c]]
      | h :: t => (c :: h) :: t

/-- One loop of `Grabber::create_metadata_for_file` (grabber.rs 286-316).
Each iteration performs one `reader.read` of up to `metadataBufferSize`
bytes (the loop head), then polls the shutdown receiver, then breaks on a
zero-length read; otherwise it appends a slot whose line count is
`newline count + 1`.  The shutdown receiver is modelled as
`signal : Nat → Bool` giving the poll outcome of the `i`-th check.
Returns the computation result together with the number of `read` calls
performed.  `fuel` is an upper bound on loop iterations;
`create_metadata_for_file` supplies `file.length + 1` which always
suffices. -/
def metaGo : Nat → List Char → (Nat → Bool) → Nat → Nat → Nat →
    ComputationResult GrabMetadata × Nat
  | 0, _, _, _, _, _ => (.stopped, 0)
  | fuel + 1, file, signal, i, byteIndex, processedLines =>
    if signal i then (.stopped, 1)
    else if file = [] then (.item ⟨[], processedLines⟩, 1)
    else
      let chunk := file.take metadataBufferSize
      let nl := chunk.count '\n'
      let slot : Slot :=
        ⟨⟨byteIndex, byteIndex + chunk.length⟩,
         ⟨processedLines, processedLines + (nl + 1)⟩⟩
      match metaGo fuel (file.drop metadataBufferSize) signal (i + 1)
          (byteIndex + chunk.length) (processedLines + (nl + 1)) with
      | (.stopped, reads) => (.stopped, reads + 1)
      | (.item md, reads) => (.item ⟨slot :: md.slots, md.line_count⟩, reads + 1)

/-- `Grabber::create_metadata_for_file` (grabber.rs 275-321). -/
def create_metadata_for_file (file : List Char) (signal : Nat → Bool) :
    ComputationResult GrabMetadata :=
  (metaGo (file.length + 1) file signal 0 0 0).1

/-- Number of buffer reads performed by `create_metadata_for_file`
(same loop, second projection). -/
def metadataReadCount (file : List Char) (signal : Nat → Bool) : Nat :=
  (metaGo (file.length + 1) file signal 0 0 0).2

/-- The absent shutdown receiver (`None`): `check_if_stop_was_requested`
always reports `false`. -/
def noShutdown : Nat → Bool := fun _ => false

/-- `slot.lines.range.contains(&line_index)` for the half-open range. -/
def slotContains (s : Slot) (k : Nat) : Bool :=
  s.lines.start ≤ k && k < s.lines.stop

/-- Binary-search loop of `Grabber::identify_slot` (grabber.rs 344-372).
`fuel` bounds the iterations; `identify_slot` passes `slots.length`,
which suffices because the bracket `hi - lo` shrinks every iteration. -/
def identifyGo (slots : List Slot) (k : Nat) : Nat → Nat → Nat → Option Slot
  | 0, _, _ => none
  | fuel + 1, lo, hi =>
    let mid := (lo + hi) / 2
    let slot := slots.getD mid defSlot
    if (k == 0 && slot.lines.start == 0) || slotContains slot k then
      some slot
    else if hi - lo ≤ 1 then
      let last := slots.getD hi defSlot
      if slotContains last k then some last else none
    else
      let next := if k < slot.lines.start then (lo, mid) else (mid, hi)
      if next = (lo, hi) then none
      else identifyGo slots k fuel next.1 next.2

/-- `Grabber::identify_slot` (grabber.rs 338-374). -/
def identify_slot (g : Grabber) (k : Nat) : Option Slot :=
  match g.metadata with
  | none => none
  | some md =>
    if md.slots.isEmpty then none
    else identifyGo md.slots k md.slots.length 0 (md.slots.length - 1)

/-- `File::seek` + `read_exact` into a buffer of `len` bytes: succeeds
iff the file holds `len` bytes starting at `pos`. -/
def readSpan (file : List Char) (pos len : Nat) : Option (List Char) :=
  if pos + len ≤ file.length then some ((file.drop pos).take len) else none

/-- `Grabber::get_entries` (grabber.rs 379-426). -/
def get_entries (g : Grabber) (r : LineRange) : Except GrabError GrabbedContent :=
  if r.stop ≤ r.start then .error (.InvalidRange r)
  else
    match identify_slot g r.start, identify_slot g (r.stop - 1) with
    | some start_slot, some end_slot =>
      match readSpan g.file start_slot.bytes.start
          (end_slot.bytes.stop - start_slot.bytes.start) with
      | none => .error .IoOperation
      | some buf =>
        let to_skip := r.start - start_slot.lines.start
        let to_take := r.stop - r.start
        .ok ⟨((splitSep buf).drop to_skip |>.take to_take).map
          (fun s => ⟨g.source_id, s, none, none⟩)⟩
    | _, _ => .ok ⟨[]⟩

/-- `ComputationError` from the rs-bindings events module (payload
messages are abstracted away; the claims only inspect the variant). -/
inductive ComputationError where
  | DestinationPath
  | Process
  | Protocol
  | SearchError
  | MultipleInitCall
  | SessionUnavailable
  | NoAssignedContent
  | Communication
  | OperationNotSupported
  | InvalidData
deriving DecidableEq, Repr

/-- `SearchFilter` from processor::search. -/
structure SearchFilter where
  value : String
  is_regex : Bool
  ignore_case : Bool
  is_word : Bool
deriving DecidableEq, Repr

/-- `Operation` from session.rs (the `End` variant is `opEnd`; paths are
replaced by file contents as everywhere in this embedding). -/
inductive SessionOperation where
  | assign (file : List Char) (source_id : String) (operation_id : String)
  | search (target_file : List Char) (filters : List SearchFilter)
      (operation_id : String)
  | opEnd
deriving DecidableEq, Repr

/-- State of a crossbeam bounded(1) channel as seen by `try_recv`. -/
inductive ChanState (α : Type) where
  | empty
  | pending (v : α)
  | disconnected
deriving DecidableEq, Repr

deriving instance DecidableEq for Except

/-- `RustSession` (session.rs 85-101).  Only the state the verified
operations touch is modelled; channels hold their pending value. -/
structure Session where
  id : String
  running : Bool
  content_grabber : Option Grabber
  search_grabber : Option Grabber
  op_channel : List SessionOperation
  content_metadata_channel :
    ChanState (Except ComputationError (Option GrabMetadata))
  search_metadata_channel : ChanState (List Char × GrabMetadata)
deriving DecidableEq, Repr

/-- Modelled from the spec: `GrabTrait::get_metadata` returns the
grabber's optional slot index (spec §3, §4.6; the generic
`Grabber<S: MetadataSource>` of the newer processor is not under src/). -/
def getMetadata (g : Grabber) : Option GrabMetadata := g.metadata

/-- Modelled from the spec: `GrabTrait::inject_metadata` deposits a
freshly computed slot index into the grabber (spec §4.6: "if a fresh
value is present, it is injected into the grabber"). -/
def injectMetadata (g : Grabber) (md : GrabMetadata) : Grabber :=
  { g with metadata := some md }

/-- Modelled from the spec: `Grabber::<TextFileSource>::new(source)`
constructs a lazy grabber (no metadata yet, spec §6 "assign ...
synchronously constructs a content grabber (lazy, without metadata)");
construction fails on an empty file (spec §3: "The path must refer to a
non-empty regular file at construction", grabber.rs `lazy`). -/
def grabberNew (file : List Char) (source_id : String) :
    Except ComputationError Grabber :=
  if file.length = 0 then .error .Protocol
  else .ok ⟨source_id, file, none, file.length, isSep (file.getLastD ' ')⟩

/-- `RustSession::get_content_grabber` (session.rs 109-161): consume a
pending metadata result from the bounded channel if present, otherwise
reuse the grabber's cached metadata; fail if neither exists. -/
def get_content_grabber (s : Session) :
    Except ComputationError Grabber × Session :=
  match s.content_grabber with
  | none => (.error .Protocol, s)
  | some cg =>
    match s.content_metadata_channel with
    | .pending res =>
      match res with
      | .ok (some md) =>
        let cg' := injectMetadata cg md
        (.ok cg', { s with content_grabber := some cg',
                           content_metadata_channel := .empty })
      | .ok none =>
        (.error .Process, { s with content_metadata_channel := .empty })
      | .error _ =>
        (.error .Protocol, { s with content_metadata_channel := .empty })
    | .empty =>
      match cg.metadata with
      | some _ => (.ok cg, s)
      | none => (.error .Protocol, s)
    | .disconnected => (.error .Protocol, s)

/-- The `"search_results"` source id used for search grabbers. -/
def searchResultsId : String := "search_results"

/-- `RustSession::get_search_grabber` (session.rs 163-212): if no search
grabber exists yet, try to build one from the pending
`(results_file, metadata)` channel value; an empty channel is not an
error (`Ok(None)`). -/
def get_search_grabber (s : Session) :
    Except ComputationError (Option Grabber) × Session :=
  match s.search_grabber with
  | none =>
    match s.search_metadata_channel with
    | .pending (file, md) =>
      let s₁ := { s with search_metadata_channel := ChanState.empty }
      match grabberNew file searchResultsId with
      | .error _ => (.error .Protocol, s₁)
      | .ok g =>
        let g' := injectMetadata g md
        match getMetadata g' with
        | some _ => (.ok (some g'), { s₁ with search_grabber := some g' })
        | none => (.error .Protocol, { s₁ with search_grabber := some g' })
    | .empty => (.ok none, s)
    | .disconnected => (.error .Protocol, s)
  | some g =>
    match getMetadata g with
    | some _ => (.ok (some g), s)
    | none => (.error .Protocol, s)

/-- `RustSession::get_search_len` (session.rs 452-463). -/
def get_search_len (s : Session) : Except ComputationError Int × Session :=
  match get_search_grabber s with
  | (.error e, s₁) => (.error e, s₁)
  | (.ok none, s₁) => (.ok 0, s₁)
  | (.ok (some g), s₁) =>
    match getMetadata g with
    | some md => (.ok ((md.line_count : Int) - 1), s₁)
    | none => (.ok 0, s₁)

/-- `RustSession::search` (session.rs 619-648).  `opId` stands for the
freshly drawn `Uuid`.  The search grabber is dropped FIRST, before the
content grabber is checked. -/
def sessionSearch (s : Session) (filters : List SearchFilter) (opId : String) :
    Except ComputationError String × Session :=
  let s₁ := { s with search_grabber := none }
  match s₁.content_grabber with
  | none => (.error .NoAssignedContent, s₁)
  | some cg =>
    (.ok opId,
     { s₁ with op_channel :=
         s₁.op_channel ++ [SessionOperation.search cg.file filters opId] })

/-- Modelled from the spec: `LineRange::from(a..=b)` turns the inclusive
range used by session.rs into the half-open range `get_entries` takes
(spec §4.7 coalesces matches into inclusive ranges which the content
grabber then serves).  The `u64` increment of the upper bound wraps. -/
def LineRange.fromInclusive (a b : Nat) : LineRange :=
  ⟨a, (b + 1) % 2 ^ 64⟩

/-- Wrapping `u64` subtraction, for the unguarded `from_pos - 1` /
`to_pos - 1` in session.rs 575/590 (`b ≤ 2^64` assumed, as for `- 1`). -/
def u64sub (a b : Nat) : Nat := (a % 2 ^ 64 + (2 ^ 64 - b)) % 2 ^ 64

/-- One decimal digit of `u64::from_str`. -/
def digitVal (c : Char) : Option Nat :=
  if '0' ≤ c ∧ c ≤ '9' then some (c.toNat - '0'.toNat) else none

/-- Accumulating decimal parse. -/
def parseDigits : List Char → Nat → Option Nat
  | [], acc => some acc
  | c :: rest, acc =>
    match digitVal c with
    | none => none
    | some d => parseDigits rest (acc * 10 + d)

/-- `str::parse::<u64>()`: optional leading `+`, at least one digit, and
the value must fit in 64 bits (otherwise `Err`). -/
def parseU64 (s : List Char) : Option Nat :=
  let s' := match s with
    | '+' :: rest => rest
    | other => other
  if s' = [] then none
  else
    match parseDigits s' 0 with
    | none => none
    | some v => if v < 2 ^ 64 then some v else none

/-- The parsing part of `grab_search`'s loop (session.rs 568-585): parse
every grabbed line as `u64`, stopping at the first failure (the code
returns the `Process` error there). -/
def parseAll : List GrabbedElement → Option (List Nat)
  | [] => some []
  | el :: rest =>
    match parseU64 el.content with
    | none => none
    | some p =>
      match parseAll rest with
      | none => none
      | some ps => some (p :: ps)

/-- The coalescing loop of `grab_search` (session.rs 568-586) over the
already-parsed match positions: runs of consecutive values are gathered,
each completed run is pushed as `(from_pos - 1, to_pos - 1)` (wrapping
`u64` subtraction).  Returns the pushed ranges plus the final
`(from_pos, to_pos)` pair. -/
def coalesceLoop : List Nat → Nat → Nat → List (Nat × Nat) →
    List (Nat × Nat) × Nat × Nat
  | [], fp, tp, acc => (acc, fp, tp)
  | p :: rest, fp, tp, acc =>
    if (tp + 1) % 2 ^ 64 ≠ p then
      coalesceLoop rest p p (acc ++ [(u64sub fp 1, u64sub tp 1)])
    else coalesceLoop rest fp p acc

/-- Full coalescing of `grab_search` (session.rs 566-591): the loop over
the elements (the first element initialises `from_pos`/`to_pos`) followed
by the final flush `if (!ranges.is_empty() && last.start != from_pos) ||
(ranges.is_empty() && !elements.is_empty())`. -/
def coalesce (positions : List Nat) : List (Nat × Nat) :=
  match positions with
  | [] => []
  | p :: rest =>
    match coalesceLoop rest p p [] with
    | (acc, fp, tp) =>
      match acc.getLast? with
      | some r =>
        if r.1 ≠ fp then acc ++ [(u64sub fp 1, u64sub tp 1)] else acc
      | none => acc ++ [(u64sub fp 1, u64sub tp 1)]

/-- The per-range loop of `grab_search` (session.rs 592-607): for each
coalesced range fetch the lines from the content grabber, annotate them
with `pos = range.start + j` and consecutive `row`s, and append. -/
def grabRanges (s : Session) : List (Nat × Nat) → Nat → List GrabbedElement →
    Except ComputationError GrabbedContent × Session
  | [], _, acc => (.ok ⟨acc⟩, s)
  | r :: rest, row, acc =>
    match get_content_grabber s with
    | (.error e, s₁) => (.error e, s₁)
    | (.ok gc, s₁) =>
      match get_entries gc (LineRange.fromInclusive r.1 r.2) with
      | .error _ => (.error .Communication, s₁)
      | .ok oc =>
        let annotated := oc.grabbed_elements.enum.map
          (fun je => { je.2 with pos := some (r.1 + je.1), row := some (row + je.1) })
        grabRanges s₁ rest (row + oc.grabbed_elements.length) (acc ++ annotated)

/-- `RustSession::grab_search` (session.rs 539-617).  The JSON
serialisation of the result is modelled as the identity; parse failures
abort with `Process`, grab failures with `Communication`. -/
def grab_search (s : Session) (startLine n : Nat) :
    Except ComputationError GrabbedContent × Session :=
  match get_search_grabber s with
  | (.error e, s₁) => (.error e, s₁)
  | (.ok none, s₁) => (.ok ⟨[]⟩, s₁)
  | (.ok (some gs), s₁) =>
    match get_entries gs (LineRange.fromInclusive startLine (startLine + n - 1)) with
    | .error _ => (.error .Communication, s₁)
    | .ok content =>
      match parseAll content.grabbed_elements with
      | none => (.error .Process, s₁)
      | some ps => grabRanges s₁ (coalesce ps) startLine []

/-- Maximal runs of consecutive values, following the spec's words
(§4.7: "Coalesce consecutive indices into inclusive ranges (runs where
`pos[k+1] == pos[k] + 1`)"). -/
def maximalRunsGo : Nat → Nat → List Nat → List (Nat × Nat)
  | a, b, [] => [(a, b)]
  | a, b, q :: rest =>
    if q = b + 1 then maximalRunsGo a q rest
    else (a, b) :: maximalRunsGo q q rest

/-- Maximal runs of a position list (spec-side notion for C8). -/
def maximalRuns : List Nat → List (Nat × Nat)
  | [] => []
  | p :: rest => maximalRunsGo p p rest

/-- Modelled from the spec (§4.7): the intended composition of
`grab_search` — one content-grabber invocation per maximal run `[a, b]`,
with the inclusive shifted range `[a-1, b-1]`, elements annotated with
`pos = original line index` and consecutive `row`s, concatenated in run
order. -/
def grabSearchSpec (gc : Grabber) : Nat → List (Nat × Nat) →
    Except ComputationError GrabbedContent
  | _, [] => .ok ⟨[]⟩
  | row, (a, b) :: rest =>
    match get_entries gc ⟨a - 1, (b - 1) + 1⟩ with
    | .error _ => .error .Communication
    | .ok oc =>
      let annotated := oc.grabbed_elements.enum.map
        (fun je => { je.2 with pos := some ((a - 1) + je.1), row := some (row + je.1) })
      match grabSearchSpec gc (row + oc.grabbed_elements.length) rest with
      | .error e => .error e
      | .ok tail => .ok ⟨annotated ++ tail.grabbed_elements⟩

/-! ### Concrete instances used by witnesses and counterexamples -/

/-- A grabber whose metadata was never created. -/
def gNoMeta : Grabber := ⟨"src", ['a', '\n'], none, 2, true⟩

/-- Search-results grabber over the file `"1\n2\n4\n"` (three matches). -/
def mdS : GrabMetadata := ⟨[⟨⟨0, 6⟩, ⟨0, 4⟩⟩], 4⟩

def gS : Grabber := ⟨"search_results", "1\n2\n4\n".toList, some mdS, 6, true⟩

/-- Content grabber over the file `"a\nb\nc\nd\ne\n"`. -/
def mdC : GrabMetadata := ⟨[⟨⟨0, 10⟩, ⟨0, 6⟩⟩], 6⟩

def gC : Grabber := ⟨"src", "a\nb\nc\nd\ne\n".toList, some mdC, 10, true⟩

/-- Session with assigned content and a completed search (`1`, `2`, `4`). -/
def sW : Session := ⟨"sess", true, some gC, some gS, [], .empty, .empty⟩

/-- Session with no search grabber and an empty search-metadata channel. -/
def sEmptySearch : Session := ⟨"sess", true, some gC, none, [], .empty, .empty⟩

/-- Search-results grabber whose recorded matches are `0`, `1`. -/
def gS0 : Grabber :=
  ⟨"search_results", "0\n1\n".toList, some ⟨[⟨⟨0, 4⟩, ⟨0, 3⟩⟩], 3⟩, 4, true⟩

def sC8 : Session := ⟨"sess", true, some gC, some gS0, [], .empty, .empty⟩

/-- Search-results grabber whose only recorded match is `0`. -/
def gS9 : Grabber :=
  ⟨"search_results", "0\n".toList, some ⟨[⟨⟨0, 2⟩, ⟨0, 2⟩⟩], 2⟩, 2, true⟩

def s9 : Session := ⟨"sess", true, some gC, some gS9, [], .empty, .empty⟩

/-- Session that has a search grabber but no assigned content grabber. -/
def s10 : Session := ⟨"sess", true, none, some gS, [], .empty, .empty⟩

/-- Signal that has already fired before the metadata builder starts. -/
def alwaysFired : Nat → Bool := fun _ => true

/-- Executable check that consecutive slots have contiguous line
ranges (`s_k.lines.end == s_{k+1}.lines.start`). -/
def linesChain : List Slot → Bool
  | [] => true
  | [_] => true
  | a :: b :: t => (a.lines.stop == b.lines.start) && linesChain (b :: t)

/-- The slot-index invariants of spec §3 (claim C3): non-empty line
ranges, contiguous ascending line boundaries, first slot starting at
line 0, and `line_count` equal to the last slot's line end (0 if no
slots). -/
def mdWF (md : GrabMetadata) : Prop :=
  (∀ s ∈ md.slots, s.lines.start < s.lines.stop) ∧
  linesChain md.slots = true ∧
  ((md.slots.head?.map (fun s => s.lines.start)).getD 0 = 0) ∧
  md.line_count = (md.slots.getLast?.map (fun s => s.lines.stop)).getD 0

instance (md : GrabMetadata) : Decidable (mdWF md) :=
  inferInstanceAs (Decidable (_ ∧ _ ∧ _ ∧ _))

/-- Two-slot metadata and grabber used by the C3 witness. -/
def mdW : GrabMetadata := ⟨[⟨⟨0, 3⟩, ⟨0, 2⟩⟩, ⟨⟨3, 6⟩, ⟨2, 4⟩⟩], 4⟩

def gW : Grabber := ⟨"src", "a\nb\nc\nd\n".toList, some mdW, 8, true⟩

/-- Tiny file and its metadata, used by the C6 witness. -/
def file6 : List Char := ['a', '\n', 'b']

def md6 : GrabMetadata := ⟨[⟨⟨0, 3⟩, ⟨0, 2⟩⟩], 2⟩

/-- Grabber for the C2 witness: the single-slot metadata of `"a\nb"`. -/
def gW2 : Grabber := ⟨"src", file6, some md6, 3, false⟩

/-- C2 counterexample data: a 64002-byte file (63999 `'a'`s, `'\n'`,
`"bc"`), which the builder splits into two buffer reads. -/
def cexFile : List Char := List.replicate 63999 'a' ++ ['\n', 'b', 'c']

def cexMd : GrabMetadata :=
  ⟨[⟨⟨0, 64000⟩, ⟨0, 2⟩⟩, ⟨⟨64000, 64002⟩, ⟨2, 3⟩⟩], 3⟩

def cexGrabber : Grabber := ⟨"src", cexFile, some cexMd, 64002, false⟩

/-- A file of exactly `DEFAULT_SLOT_SIZE` (64 KiB) bytes, for C5. -/
def file5 : List Char := List.replicate 65536 'a'

/-! ### Theorems -/

/-- C1 part: `get_entries` fails with `InvalidRange` iff `r.end ≤ r.start`,
and with absent metadata a valid range yields empty content (not `Config`). -/
theorem get_entries_error_spec (g : Grabber) (r : LineRange) :
    ((∃ r₀, get_entries g r = .error (.InvalidRange r₀)) ↔ r.stop ≤ r.start) ∧
    (g.metadata = none → r.start < r.stop → get_entries g r = .ok ⟨[]⟩) := by
  constructor
  · constructor
    · rintro ⟨r₀, h⟩
      by_contra hlt
      rw [get_entries, if_neg hlt] at h
      rcases h₁ : identify_slot g r.start with _ | s₁ <;>
        rcases h₂ : identify_slot g (r.stop - 1) with _ | s₂ <;>
          rw [h₁, h₂] at h <;> try exact Except.noConfusion h
      rcases h₃ : readSpan g.file s₁.bytes.start (s₂.bytes.stop - s₁.bytes.start)
        with _ | buf <;> simp only [h₃] at h <;>
          first
          | exact Except.noConfusion h
          | exact GrabError.noConfusion (Except.error.inj h)
    · intro hle
      refine ⟨r, ?_⟩
      rw [get_entries, if_pos hle]
  · intro hnone hlt
    rw [get_entries, if_neg (by omega), identify_slot, hnone]

/-- C1 counterexample: with a valid range and absent metadata,
`get_entries` returns empty content instead of failing with `Config`. -/
theorem get_entries_no_metadata_counterexample :
    get_entries gNoMeta ⟨0, 1⟩ = .ok ⟨[]⟩ := by decide

/-- C1 witness: the amended statement at concrete inputs. -/
theorem get_entries_error_spec_witness :
    get_entries gNoMeta ⟨0, 1⟩ = .ok ⟨[]⟩ ∧
    (∃ r₀, get_entries gNoMeta ⟨1, 1⟩ = .error (.InvalidRange r₀)) :=
  ⟨(get_entries_error_spec gNoMeta ⟨0, 1⟩).2 rfl (by decide),
   (get_entries_error_spec gNoMeta ⟨1, 1⟩).1.mpr (by decide)⟩

/-- Unfolding of one `metaGo` iteration (definitional). -/
theorem metaGo_succ (fuel : Nat) (file : List Char) (signal : Nat → Bool)
    (i b p : Nat) :
    metaGo (fuel + 1) file signal i b p =
      if signal i then (.stopped, 1)
      else if file = [] then (.item ⟨[], p⟩, 1)
      else
        match metaGo fuel (file.drop metadataBufferSize) signal (i + 1)
            (b + (file.take metadataBufferSize).length)
            (p + ((file.take metadataBufferSize).count '\n' + 1)) with
        | (.stopped, reads) => (.stopped, reads + 1)
        | (.item md, reads) =>
          (.item ⟨(⟨⟨b, b + (file.take metadataBufferSize).length⟩,
            ⟨p, p + ((file.take metadataBufferSize).count '\n' + 1)⟩⟩ : Slot)
              :: md.slots, md.line_count⟩, reads + 1) := rfl

/-- Helper for C4: if the shutdown signal reports fired at the `k`-th
poll (counting from the poll index `i` the loop starts at), the loop
performs at most `k + 1` buffer reads. -/
theorem metaGo_reads_le (k : Nat) :
    ∀ fuel file signal i b p, signal (i + k) = true →
      (metaGo fuel file signal i b p).2 ≤ k + 1 := by
  induction k with
  | zero =>
    intro fuel file signal i b p h
    cases fuel with
    | zero => simp [metaGo]
    | succ fuel =>
      have h' : signal i = true := by simpa using h
      rw [metaGo_succ, if_pos h']
  | succ k ih =>
    intro fuel file signal i b p h
    cases fuel with
    | zero => simp [metaGo]
    | succ fuel =>
      rw [metaGo_succ]
      by_cases hs : signal i = true
      · rw [if_pos hs]
        omega
      · rw [if_neg (by simpa using hs)]
        by_cases hf : file = []
        · rw [if_pos hf]
          omega
        · rw [if_neg hf]
          have h' : signal (i + 1 + k) = true := by
            have he : i + 1 + k = i + (k + 1) := by omega
            rw [he]
            exact h
          have hrec := ih fuel (file.drop metadataBufferSize) signal (i + 1)
            (b + (file.take metadataBufferSize).length)
            (p + ((file.take metadataBufferSize).count '\n' + 1)) h'
          rcases hm : metaGo fuel (file.drop metadataBufferSize) signal (i + 1)
              (b + (file.take metadataBufferSize).length)
              (p + ((file.take metadataBufferSize).count '\n' + 1)) with ⟨res, reads⟩
          rw [hm] at hrec
          cases res <;> simp only [] <;> omega

/-- C4 (amended): the shutdown signal is polled after each buffer read;
once it has fired, the builder performs at most one further read (so at
most `k + 1` reads in total if the signal fires at poll `k`), and a
signal fired from the start still yields `Stopped` after one read. -/
theorem metadata_cancellation_bound (file : List Char) (signal : Nat → Bool)
    (k : Nat) (h : signal k = true) :
    metadataReadCount file signal ≤ k + 1 ∧
    (signal 0 = true → create_metadata_for_file file signal = .stopped) := by
  constructor
  · exact metaGo_reads_le k (file.length + 1) file signal 0 0 0 (by simpa using h)
  · intro h0
    rw [create_metadata_for_file, metaGo, if_pos h0]

/-- C4 counterexample: the read happens in the loop head, before the
poll; with the signal fired before the builder starts, one buffer read
is still performed (the claim says none would be). -/
theorem metadata_read_after_fire_counterexample :
    metadataReadCount ['a'] alwaysFired = 1 ∧
    create_metadata_for_file ['a'] alwaysFired = .stopped := by decide

/-- C4 witness: the amended bound at concrete inputs. -/
theorem metadata_cancellation_bound_witness :
    metadataReadCount ['a', 'b'] alwaysFired ≤ 0 + 1 ∧
    create_metadata_for_file ['a', 'b'] alwaysFired = .stopped :=
  ⟨(metadata_cancellation_bound ['a', 'b'] alwaysFired 0 rfl).1,
   (metadata_cancellation_bound ['a', 'b'] alwaysFired 0 rfl).2 rfl⟩

/-- Helper for C6: every `Item` produced by the builder loop has slots
whose byte/line ranges chain contiguously, starting at the loop's
accumulators, with the final `line_count` equal to the last slot's line
end. -/
theorem metaGo_item_invariants (fuel : Nat) :
    ∀ file signal i b p md reads, file.length < fuel →
      metaGo fuel file signal i b p = (.item md, reads) →
      (file = [] → md = ⟨[], p⟩) ∧
      (file ≠ [] →
        md.slots ≠ [] ∧
        (∀ s, md.slots.head? = some s → s.bytes.start = b ∧ s.lines.start = p) ∧
        List.Chain' (fun a c => a.bytes.stop = c.bytes.start) md.slots ∧
        List.Chain' (fun a c => a.lines.stop = c.lines.start) md.slots ∧
        (∀ s, md.slots.getLast? = some s → md.line_count = s.lines.stop)) := by
  induction fuel with
  | zero =>
    intro file _ _ _ _ _ _ hlen _
    omega
  | succ fuel ih =>
    intro file signal i b p md reads hlen hmd
    rw [metaGo_succ] at hmd
    by_cases hs : signal i = true
    · rw [if_pos hs] at hmd
      exact absurd (Prod.mk.inj hmd).1 (by simp)
    · rw [if_neg (by simpa using hs)] at hmd
      by_cases hf : file = []
      · rw [if_pos hf] at hmd
        have hmdv : md = ⟨[], p⟩ :=
          (ComputationResult.item.inj (Prod.mk.inj hmd).1).symm
        exact ⟨fun _ => hmdv, fun hne => absurd hf hne⟩
      · rw [if_neg hf] at hmd
        rcases hm : metaGo fuel (file.drop metadataBufferSize) signal (i + 1)
            (b + (file.take metadataBufferSize).length)
            (p + ((file.take metadataBufferSize).count '\n' + 1))
          with ⟨res, reads'⟩
        rw [hm] at hmd
        cases res with
        | stopped => exact absurd (Prod.mk.inj hmd).1 (by simp)
        | item md' =>
          have hbuf : 1 ≤ metadataBufferSize := by decide
          have hlen' : (file.drop metadataBufferSize).length < fuel := by
            rw [List.length_drop]
            have : file.length ≠ 0 := fun h0 => hf (List.length_eq_zero.mp h0)
            omega
          have hih := ih (file.drop metadataBufferSize) signal (i + 1)
            (b + (file.take metadataBufferSize).length)
            (p + ((file.take metadataBufferSize).count '\n' + 1)) md' reads' hlen' hm
          have hmdv : md = ⟨(⟨⟨b, b + (file.take metadataBufferSize).length⟩,
              ⟨p, p + ((file.take metadataBufferSize).count '\n' + 1)⟩⟩ : Slot)
              :: md'.slots, md'.line_count⟩ :=
            (ComputationResult.item.inj (Prod.mk.inj hmd).1).symm
          refine ⟨fun hfe => absurd hfe hf, fun _ => ?_⟩
          by_cases hdrop : file.drop metadataBufferSize = []
          · have hmd' : md' = ⟨[], p + ((file.take metadataBufferSize).count '\n' + 1)⟩ :=
              hih.1 hdrop
            rw [hmdv, hmd']
            refine ⟨by simp, ?_, ?_, ?_, ?_⟩
            · intro s hsome
              simp only [List.head?_cons, Option.some.injEq] at hsome
              rw [← hsome]
              exact ⟨rfl, rfl⟩
            · exact List.chain'_singleton _
            · exact List.chain'_singleton _
            · intro s hsome
              simp only [List.getLast?_singleton, Option.some.injEq] at hsome
              rw [← hsome]
          · obtain ⟨hne', hhead', hbchain', hlchain', hlast'⟩ := hih.2 hdrop
            obtain ⟨s0, rest', hrest'⟩ := List.exists_cons_of_ne_nil hne'
            have hhead0 := hhead' s0 (by rw [hrest']; rfl)
            rw [hmdv]
            refine ⟨by simp, ?_, ?_, ?_, ?_⟩
            · intro s hsome
              simp only [List.head?_cons, Option.some.injEq] at hsome
              rw [← hsome]
              exact ⟨rfl, rfl⟩
            · rw [List.chain'_cons']
              refine ⟨?_, hbchain'⟩
              intro y hy
              rw [hrest'] at hy
              simp only [List.head?_cons, Option.mem_def, Option.some.injEq] at hy
              rw [← hy]
              exact hhead0.1.symm
            · rw [List.chain'_cons']
              refine ⟨?_, hlchain'⟩
              intro y hy
              rw [hrest'] at hy
              simp only [List.head?_cons, Option.mem_def, Option.some.injEq] at hy
              rw [← hy]
              exact hhead0.2.symm
            · intro s hsome
              apply hlast'
              rw [hrest'] at hsome ⊢
              rw [List.getLast?_cons_cons] at hsome
              exact hsome

/-- C6: slots built by `create_metadata_for_file` over a non-empty file
are contiguous in bytes and lines, start at `(0, 0)`, and the total
`line_count` is the last slot's line end. -/
theorem metadata_slot_contiguity (file : List Char) (signal : Nat → Bool)
    (md : GrabMetadata) (hne : file ≠ [])
    (hmd : create_metadata_for_file file signal = .item md) :
    md.slots ≠ [] ∧
    (∀ s, md.slots.head? = some s → s.bytes.start = 0 ∧ s.lines.start = 0) ∧
    List.Chain' (fun a c => a.bytes.stop = c.bytes.start) md.slots ∧
    List.Chain' (fun a c => a.lines.stop = c.lines.start) md.slots ∧
    (∀ s, md.slots.getLast? = some s → md.line_count = s.lines.stop) := by
  rcases hm : metaGo (file.length + 1) file signal 0 0 0 with ⟨res, reads⟩
  rw [create_metadata_for_file, hm] at hmd
  have hres : res = .item md := hmd
  rw [hres] at hm
  exact (metaGo_item_invariants (file.length + 1) file signal 0 0 0 md reads
    (by omega) hm).2 hne

/-- C6 witness: the invariants at the concrete file `"a\nb"`. -/
theorem metadata_slot_contiguity_witness :
    md6.slots ≠ [] ∧
    (∀ s, md6.slots.head? = some s → s.bytes.start = 0 ∧ s.lines.start = 0) ∧
    List.Chain' (fun a c => a.bytes.stop = c.bytes.start) md6.slots ∧
    List.Chain' (fun a c => a.lines.stop = c.lines.start) md6.slots ∧
    (∀ s, md6.slots.getLast? = some s → md6.line_count = s.lines.stop) :=
  metadata_slot_contiguity file6 noShutdown md6 (by decide) (by decide)

/-- Unfolding of one `identifyGo` iteration (definitional). -/
theorem identifyGo_succ (slots : List Slot) (k fuel lo hi : Nat) :
    identifyGo slots k (fuel + 1) lo hi =
      (if (k == 0 && (slots.getD ((lo + hi) / 2) defSlot).lines.start == 0)
          || slotContains (slots.getD ((lo + hi) / 2) defSlot) k then
        some (slots.getD ((lo + hi) / 2) defSlot)
      else if hi - lo ≤ 1 then
        (if slotContains (slots.getD hi defSlot) k then
          some (slots.getD hi defSlot)
        else none)
      else
        (if (if k < (slots.getD ((lo + hi) / 2) defSlot).lines.start
              then (lo, (lo + hi) / 2) else ((lo + hi) / 2, hi)) = (lo, hi)
        then none
        else identifyGo slots k fuel
          (if k < (slots.getD ((lo + hi) / 2) defSlot).lines.start
            then (lo, (lo + hi) / 2) else ((lo + hi) / 2, hi)).1
          (if k < (slots.getD ((lo + hi) / 2) defSlot).lines.start
            then (lo, (lo + hi) / 2) else ((lo + hi) / 2, hi)).2)) := rfl

/-- `getD` with an in-bounds index is a member of the list. -/
theorem getD_mem_of_lt (l : List Slot) (i : Nat) (h : i < l.length) :
    l.getD i defSlot ∈ l := by
  rw [List.getD_eq_getElem l defSlot h]
  exact List.getElem_mem h

/-- Adjacent slots of a `linesChain` list share a line boundary. -/
theorem linesChain_adjacent :
    ∀ (l : List Slot), linesChain l = true → ∀ i, i + 1 < l.length →
      (l.getD i defSlot).lines.stop = (l.getD (i + 1) defSlot).lines.start := by
  intro l
  induction l with
  | nil =>
    intro _ i h
    simp at h
  | cons a t ih =>
    cases t with
    | nil =>
      intro _ i h
      simp at h
    | cons b t' =>
      intro hch i h
      rw [linesChain] at hch
      obtain ⟨h1, h2⟩ := (Bool.and_eq_true _ _).mp hch
      cases i with
      | zero => simpa using beq_iff_eq.mp h1
      | succ i =>
        have hlen : i + 1 < (b :: t').length := by
          simpa using Nat.lt_of_succ_lt_succ h
        simpa [List.getD_cons_succ] using ih h2 i hlen

/-- For `i < j` the line end of slot `i` is at most the line start of
slot `j` (the boundaries ascend). -/
theorem slots_stop_le_start (l : List Slot)
    (hne : ∀ s ∈ l, s.lines.start < s.lines.stop)
    (hch : linesChain l = true) :
    ∀ j i, i < j → j < l.length →
      (l.getD i defSlot).lines.stop ≤ (l.getD j defSlot).lines.start := by
  intro j
  induction j with
  | zero =>
    intro i h _
    omega
  | succ j ih =>
    intro i hij hlen
    have hadj : (l.getD j defSlot).lines.stop = (l.getD (j + 1) defSlot).lines.start :=
      linesChain_adjacent l hch j hlen
    rcases Nat.lt_succ_iff_lt_or_eq.mp hij with h | h
    · have hj : (l.getD i defSlot).lines.stop ≤ (l.getD j defSlot).lines.start :=
        ih i h (by omega)
      have hmem : l.getD j defSlot ∈ l := getD_mem_of_lt l j (by omega)
      have := hne _ hmem
      omega
    · rw [h]
      omega

/-- Line starts are monotone in the slot index. -/
theorem slots_start_le_start (l : List Slot)
    (hne : ∀ s ∈ l, s.lines.start < s.lines.stop)
    (hch : linesChain l = true) (i j : Nat) (hij : i ≤ j) (hj : j < l.length) :
    (l.getD i defSlot).lines.start ≤ (l.getD j defSlot).lines.start := by
  rcases Nat.lt_or_ge i j with h | h
  · have h1 := slots_stop_le_start l hne hch j i h hj
    have hmem : l.getD i defSlot ∈ l := getD_mem_of_lt l i (by omega)
    have := hne _ hmem
    omega
  · have : i = j := by omega
    rw [this]

/-- At most one slot index contains a given line index. -/
theorem slots_unique_index (l : List Slot)
    (hne : ∀ s ∈ l, s.lines.start < s.lines.stop)
    (hch : linesChain l = true) (k i j : Nat) (hi : i < l.length)
    (hj : j < l.length)
    (hik : (l.getD i defSlot).lines.start ≤ k ∧ k < (l.getD i defSlot).lines.stop)
    (hjk : (l.getD j defSlot).lines.start ≤ k ∧ k < (l.getD j defSlot).lines.stop) :
    i = j := by
  rcases Nat.lt_trichotomy i j with h | h | h
  · have := slots_stop_le_start l hne hch j i h hj
    omega
  · exact h
  · have := slots_stop_le_start l hne hch i j h hi
    omega

/-- If `k` lies below the last slot's line end (and at or above the
first slot's line start), some slot contains it. -/
theorem exists_slot_of_lt :
    ∀ (l : List Slot), linesChain l = true →
      ∀ k, (∀ s, l.head? = some s → s.lines.start ≤ k) →
        (∀ s, l.getLast? = some s → k < s.lines.stop) →
        l ≠ [] → ∃ s ∈ l, s.lines.start ≤ k ∧ k < s.lines.stop := by
  intro l
  induction l with
  | nil =>
    intro _ k _ _ hne
    exact absurd rfl hne
  | cons a t ih =>
    intro hch k hhd hlast _
    by_cases hk : k < a.lines.stop
    · exact ⟨a, List.mem_cons_self a t, hhd a rfl, hk⟩
    · cases t with
      | nil =>
        have := hlast a (by rfl)
        omega
      | cons b t' =>
        rw [linesChain] at hch
        obtain ⟨h1, h2⟩ := (Bool.and_eq_true _ _).mp hch
        have hab : a.lines.stop = b.lines.start := beq_iff_eq.mp h1
        have hbk : b.lines.start ≤ k := by omega
        obtain ⟨s, hs, hsk⟩ := ih h2 k
          (by
            intro s hsome
            simp only [List.head?_cons, Option.some.injEq] at hsome
            rw [← hsome]
            exact hbk)
          (by
            intro s hsome
            exact hlast s (by rw [List.getLast?_cons_cons]; exact hsome))
          (by simp)
        exact ⟨s, List.mem_cons_of_mem a hs, hsk⟩

/-- The binary-search loop finds the slot containing `k` whenever the
containing index lies in the searched bracket. -/
theorem identifyGo_finds (slots : List Slot) (k : Nat)
    (hne : ∀ s ∈ slots, s.lines.start < s.lines.stop)
    (hch : linesChain slots = true) :
    ∀ fuel lo hi j, hi - lo < fuel → hi < slots.length → lo ≤ j → j ≤ hi →
      (slots.getD j defSlot).lines.start ≤ k →
      k < (slots.getD j defSlot).lines.stop →
      identifyGo slots k fuel lo hi = some (slots.getD j defSlot) := by
  intro fuel
  induction fuel with
  | zero =>
    intro lo hi j hfuel _ _ _ _ _
    omega
  | succ fuel ih =>
    intro lo hi j hfuel hhi hloj hjhi hjs hjt
    rw [identifyGo_succ]
    by_cases hcond : ((k == 0 && (slots.getD ((lo + hi) / 2) defSlot).lines.start == 0)
        || slotContains (slots.getD ((lo + hi) / 2) defSlot) k) = true
    · rw [if_pos hcond]
      have hmidlt : (lo + hi) / 2 < slots.length := by omega
      have hmidmem := getD_mem_of_lt slots ((lo + hi) / 2) hmidlt
      have hmidc : (slots.getD ((lo + hi) / 2) defSlot).lines.start ≤ k ∧
          k < (slots.getD ((lo + hi) / 2) defSlot).lines.stop := by
        rcases (Bool.or_eq_true _ _).mp hcond with h | h
        · obtain ⟨h0, hstart⟩ := (Bool.and_eq_true _ _).mp h
          have hk0 : k = 0 := beq_iff_eq.mp h0
          have hs0 : (slots.getD ((lo + hi) / 2) defSlot).lines.start = 0 :=
            beq_iff_eq.mp hstart
          have := hne _ hmidmem
          omega
        · rw [slotContains] at h
          obtain ⟨h1, h2⟩ := (Bool.and_eq_true _ _).mp h
          exact ⟨of_decide_eq_true h1, of_decide_eq_true h2⟩
      have heq : (lo + hi) / 2 = j :=
        slots_unique_index slots hne hch k ((lo + hi) / 2) j hmidlt (by omega)
          hmidc ⟨hjs, hjt⟩
      rw [heq]
    · rw [if_neg hcond]
      have hmidnc : ¬((slots.getD ((lo + hi) / 2) defSlot).lines.start ≤ k ∧
          k < (slots.getD ((lo + hi) / 2) defSlot).lines.stop) := by
        intro hc
        apply hcond
        apply (Bool.or_eq_true _ _).mpr
        right
        rw [slotContains]
        simp only [Bool.and_eq_true, decide_eq_true_eq]
        exact hc
      by_cases hbr : hi - lo ≤ 1
      · rw [if_pos hbr]
        have hjhi' : j = hi := by
          rcases Nat.eq_or_lt_of_le hjhi with h | h
          · exact h
          · exfalso
            have : j = (lo + hi) / 2 := by omega
            rw [← this] at hmidnc
            exact hmidnc ⟨hjs, hjt⟩
        rw [hjhi', if_pos]
        rw [slotContains]
        simp only [Bool.and_eq_true, decide_eq_true_eq]
        rw [← hjhi']
        exact ⟨hjs, hjt⟩
      · rw [if_neg hbr]
        by_cases hnav : k < (slots.getD ((lo + hi) / 2) defSlot).lines.start
        · have hjmid : j < (lo + hi) / 2 := by
            by_contra hge
            have := slots_start_le_start slots hne hch ((lo + hi) / 2) j
              (by omega) (by omega)
            omega
          rw [if_pos hnav, if_neg (by
            intro hpair
            have := congrArg Prod.snd hpair
            simp only [] at this
            omega)]
          exact ih lo ((lo + hi) / 2) j (by omega) (by omega) hloj (by omega) hjs hjt
        · have hjmid : (lo + hi) / 2 ≤ j := by
            by_contra hlt
            have := slots_stop_le_start slots hne hch ((lo + hi) / 2) j
              (by omega) (by omega)
            omega
          rw [if_neg hnav, if_neg (by
            intro hpair
            have := congrArg Prod.fst hpair
            simp only [] at this
            omega)]
          exact ih ((lo + hi) / 2) hi j (by omega) hhi hjmid hjhi hjs hjt

/-- The binary-search loop returns `none` when no slot contains `k`. -/
theorem identifyGo_misses (slots : List Slot) (k : Nat)
    (hne : ∀ s ∈ slots, s.lines.start < s.lines.stop)
    (hnone : ∀ s ∈ slots, ¬(s.lines.start ≤ k ∧ k < s.lines.stop)) :
    ∀ fuel lo hi, lo ≤ hi → hi < slots.length →
      identifyGo slots k fuel lo hi = none := by
  intro fuel
  induction fuel with
  | zero =>
    intro lo hi _ _
    rfl
  | succ fuel ih =>
    intro lo hi hlohi hhi
    rw [identifyGo_succ]
    have hmidlt : (lo + hi) / 2 < slots.length := by omega
    have hmidmem := getD_mem_of_lt slots ((lo + hi) / 2) hmidlt
    have hcond : ¬(((k == 0 && (slots.getD ((lo + hi) / 2) defSlot).lines.start == 0)
        || slotContains (slots.getD ((lo + hi) / 2) defSlot) k) = true) := by
      intro hc
      rcases (Bool.or_eq_true _ _).mp hc with h | h
      · obtain ⟨h0, hstart⟩ := (Bool.and_eq_true _ _).mp h
        have hk0 : k = 0 := beq_iff_eq.mp h0
        have hs0 : (slots.getD ((lo + hi) / 2) defSlot).lines.start = 0 :=
          beq_iff_eq.mp hstart
        have := hne _ hmidmem
        exact hnone _ hmidmem (by omega)
      · rw [slotContains] at h
        simp only [Bool.and_eq_true, decide_eq_true_eq] at h
        exact hnone _ hmidmem h
    rw [if_neg hcond]
    by_cases hbr : hi - lo ≤ 1
    · rw [if_pos hbr, if_neg]
      rw [slotContains]
      simp only [Bool.and_eq_true, decide_eq_true_eq]
      exact hnone _ (getD_mem_of_lt slots hi hhi)
    · rw [if_neg hbr]
      by_cases hnav : k < (slots.getD ((lo + hi) / 2) defSlot).lines.start
      · rw [if_pos hnav]
        by_cases hpair : ((lo, (lo + hi) / 2) : Nat × Nat) = (lo, hi)
        · rw [if_pos hpair]
        · rw [if_neg hpair]
          exact ih lo ((lo + hi) / 2) (by omega) (by omega)
      · rw [if_neg hnav]
        by_cases hpair : (((lo + hi) / 2, hi) : Nat × Nat) = (lo, hi)
        · rw [if_pos hpair]
        · rw [if_neg hpair]
          exact ih ((lo + hi) / 2) hi (by omega) hhi

/-- C3: under the slot-index invariants, `identify_slot` returns the
unique slot containing `k` exactly when `k < line_count`, `none` when
`k ≥ line_count` or the slot list is empty, and is stable under repeated
invocation. -/
theorem identify_slot_spec (g : Grabber) (md : GrabMetadata) (k : Nat)
    (hg : g.metadata = some md) (hwf : mdWF md) :
    (k < md.line_count → ∃ s, identify_slot g k = some s ∧ s ∈ md.slots ∧
      s.lines.start ≤ k ∧ k < s.lines.stop ∧
      (∀ t ∈ md.slots, t.lines.start ≤ k → k < t.lines.stop → t = s)) ∧
    (md.line_count ≤ k → identify_slot g k = none) ∧
    (md.slots = [] → identify_slot g k = none) ∧
    identify_slot g k = identify_slot g k := by
  obtain ⟨hne, hch, hhead, hcount⟩ := hwf
  have hempty : md.slots = [] → identify_slot g k = none := by
    intro h
    simp [identify_slot, hg, h]
  refine ⟨?_, ?_, hempty, rfl⟩
  · intro hk
    have hnenil : md.slots ≠ [] := by
      intro h
      rw [h] at hcount
      simp at hcount
      omega
    obtain ⟨hd, tl, hcons⟩ := List.exists_cons_of_ne_nil hnenil
    have hlast : md.slots.getLast? = some (md.slots.getLast hnenil) :=
      List.getLast?_eq_getLast_of_ne_nil hnenil
    have hcount' : md.line_count = (md.slots.getLast hnenil).lines.stop := by
      rw [hlast] at hcount
      simpa using hcount
    obtain ⟨s, hsmem, hss, hst⟩ := exists_slot_of_lt md.slots hch k
      (by
        intro s hsome
        rw [hcons] at hsome
        simp only [List.head?_cons, Option.some.injEq] at hsome
        have : s.lines.start = 0 := by
          rw [hcons] at hhead
          simp only [List.head?_cons, Option.map_some, Option.getD_some] at hhead
          rw [← hsome]
          exact hhead
        omega)
      (by
        intro s hsome
        rw [hlast] at hsome
        have hgs : md.slots.getLast hnenil = s := by simpa using hsome
        rw [← hgs, ← hcount']
        exact hk)
      hnenil
    obtain ⟨n, hn, hget⟩ := List.mem_iff_getElem.mp hsmem
    have hgetD : md.slots.getD n defSlot = s := by
      rw [List.getD_eq_getElem md.slots defSlot hn]
      exact hget
    have hlen1 : 1 ≤ md.slots.length := by
      rw [hcons]
      simp
    have hfind := identifyGo_finds md.slots k hne hch md.slots.length 0
      (md.slots.length - 1) n (by omega) (by omega) (by omega) (by omega)
      (by rw [hgetD]; exact hss) (by rw [hgetD]; exact hst)
    refine ⟨s, ?_, hsmem, hss, hst, ?_⟩
    · simp only [identify_slot, hg]
      rw [if_neg (by rw [hcons]; simp), hfind, hgetD]
    · intro t htmem hts htt
      obtain ⟨m, hm, hgetm⟩ := List.mem_iff_getElem.mp htmem
      have hgetDm : md.slots.getD m defSlot = t := by
        rw [List.getD_eq_getElem md.slots defSlot hm]
        exact hgetm
      have : m = n := by
        apply slots_unique_index md.slots hne hch k m n hm hn
        · rw [hgetDm]
          exact ⟨hts, htt⟩
        · rw [hgetD]
          exact ⟨hss, hst⟩
      rw [← hgetDm, this, hgetD]
  · intro hk
    rcases hemp : md.slots with _ | ⟨hd, tl⟩
    · exact hempty hemp
    · have hnenil : md.slots ≠ [] := by
        rw [hemp]
        simp
    -- no slot contains k, since every slot ends at or below line_count
      have hnone : ∀ s ∈ md.slots, ¬(s.lines.start ≤ k ∧ k < s.lines.stop) := by
        intro s hsmem hc
        obtain ⟨m, hm, hgetm⟩ := List.mem_iff_getElem.mp hsmem
        have hgetDm : md.slots.getD m defSlot = s := by
          rw [List.getD_eq_getElem md.slots defSlot hm]
          exact hgetm
        have hlast : md.slots.getLast? = some (md.slots.getLast hnenil) :=
          List.getLast?_eq_getLast_of_ne_nil hnenil
        have hcount' : md.line_count = (md.slots.getLast hnenil).lines.stop := by
          rw [hlast] at hcount
          simpa using hcount
        have hlastD : md.slots.getLast hnenil = md.slots.getD (md.slots.length - 1) defSlot := by
          rw [List.getD_eq_getElem md.slots defSlot (by
            have : md.slots.length ≠ 0 := by
              rw [hemp]
              simp
            omega)]
          exact List.getLast_eq_getElem md.slots hnenil
        have hstople : s.lines.stop ≤ md.line_count := by
          rcases Nat.lt_or_ge m (md.slots.length - 1) with hmlt | hmge
          · have h1 := slots_stop_le_start md.slots hne hch (md.slots.length - 1) m
              hmlt (by omega)
            have h2 := hne _ (getD_mem_of_lt md.slots (md.slots.length - 1) (by omega))
            rw [hcount', hlastD]
            rw [hgetDm] at h1
            omega
          · have hmeq : m = md.slots.length - 1 := by omega
            rw [hcount', hlastD, ← hmeq, hgetDm]
        omega
      simp only [identify_slot, hg]
      rw [if_neg (by rw [hemp]; simp)]
      exact identifyGo_misses md.slots k hne hnone md.slots.length 0
        (md.slots.length - 1) (by omega) (by
          have : md.slots.length ≠ 0 := by
            rw [hemp]
            simp
          omega)

/-- C3 witness: the lookup contract at a concrete two-slot index. -/
theorem identify_slot_spec_witness :
    ((2 : Nat) < mdW.line_count → ∃ s, identify_slot gW 2 = some s ∧ s ∈ mdW.slots ∧
      s.lines.start ≤ 2 ∧ 2 < s.lines.stop ∧
      (∀ t ∈ mdW.slots, t.lines.start ≤ 2 → 2 < t.lines.stop → t = s)) ∧
    (mdW.line_count ≤ 2 → identify_slot gW 2 = none) ∧
    (mdW.slots = [] → identify_slot gW 2 = none) ∧
    identify_slot gW 2 = identify_slot gW 2 :=
  identify_slot_spec gW mdW 2 rfl (by decide)

/-- A file that fits in one read buffer produces exactly one slot. -/
theorem metaGo_small (fuel : Nat) (file : List Char) (signal : Nat → Bool)
    (i b p : Nat) (hs : signal i = false) (hs2 : signal (i + 1) = false)
    (hne : file ≠ []) (hlen : file.length ≤ metadataBufferSize)
    (hfuel : 1 < fuel) :
    metaGo fuel file signal i b p =
      (.item ⟨[⟨⟨b, b + file.length⟩, ⟨p, p + (file.count '\n' + 1)⟩⟩],
        p + (file.count '\n' + 1)⟩, 2) := by
  match fuel, hfuel with
  | fuel + 1 + 1, _ =>
    rw [metaGo_succ, if_neg (by rw [hs]; simp), if_neg hne]
    rw [List.take_of_length_le hlen, List.drop_of_length_le hlen]
    rw [metaGo_succ, if_neg (by rw [hs2]; simp), if_pos rfl]

/-- `splitSep` never returns the empty list of pieces. -/
theorem splitSep_ne_nil (l : List Char) : splitSep l ≠ [] := by
  induction l with
  | nil => simp [splitSep]
  | cons c rest ih =>
    rw [splitSep]
    by_cases h : isSep c = true
    · rw [if_pos h]
      simp
    · rw [if_neg h]
      rcases hs : splitSep rest with _ | ⟨hd, tl⟩ <;> simp

/-- Splitting after a separator-free prefix extends the first piece. -/
theorem splitSep_append_noSep (l r : List Char)
    (h : ∀ c ∈ l, isSep c = false) (hd : List Char) (tl : List (List Char))
    (hr : splitSep r = hd :: tl) :
    splitSep (l ++ r) = (l ++ hd) :: tl := by
  induction l with
  | nil => simpa using hr
  | cons c l' ih =>
    have hc : isSep c = false := h c (by simp)
    have ih' := ih (fun d hdm => h d (by simp [hdm]))
    rw [List.cons_append, splitSep, if_neg (by rw [hc]; simp), ih']
    rfl

/-- The number of pieces is the number of separators plus one. -/
theorem splitSep_length (l : List Char) :
    (splitSep l).length = l.countP (fun c => isSep c) + 1 := by
  induction l with
  | nil => rfl
  | cons c rest ih =>
    rw [splitSep]
    by_cases h : isSep c = true
    · rw [if_pos h]
      simp [List.countP_cons, h, ih]
    · rw [if_neg h]
      rcases hs : splitSep rest with _ | ⟨hd, tl⟩
      · exact absurd hs (splitSep_ne_nil rest)
      · rw [hs] at ih
        show ((c :: hd) :: tl).length = (c :: rest).countP (fun c => isSep c) + 1
        have hcp : (c :: rest).countP (fun c => isSep c) =
            rest.countP (fun c => isSep c) := List.countP_cons_of_neg _ _ h
        rw [hcp]
        simp only [List.length_cons] at ih ⊢
        omega

/-- Newlines are separators, so the newline count bounds the separator
count from below. -/
theorem count_le_countP_sep (l : List Char) :
    l.count '\n' ≤ l.countP (fun c => isSep c) := by
  rw [List.count_eq_countP]
  apply List.countP_mono_left
  intro a _ hpa
  have ha : a = '\n' := by simpa using hpa
  rw [ha]
  decide

/-- The binary search over a one-slot index finds the slot. -/
theorem identifyGo_singleton (s : Slot) (k : Nat)
    (h : slotContains s k = true) :
    identifyGo [s] k 1 0 0 = some s := by
  rw [identifyGo_succ]
  simp [h]

/-- Evaluation of `get_entries` when both slot lookups succeed and the
read span lies inside the file. -/
theorem get_entries_eval (g : Grabber) (r : LineRange) (s1 s2 : Slot)
    (hr : r.start < r.stop)
    (h1 : identify_slot g r.start = some s1)
    (h2 : identify_slot g (r.stop - 1) = some s2)
    (hread : s1.bytes.start + (s2.bytes.stop - s1.bytes.start) ≤ g.file.length) :
    get_entries g r = .ok ⟨(((splitSep ((g.file.drop s1.bytes.start).take
      (s2.bytes.stop - s1.bytes.start))).drop (r.start - s1.lines.start)).take
      (r.stop - r.start)).map (fun c => ⟨g.source_id, c, none, none⟩)⟩ := by
  rw [get_entries, if_neg (by omega), h1, h2]
  show (match readSpan g.file s1.bytes.start (s2.bytes.stop - s1.bytes.start) with
    | none => (Except.error GrabError.IoOperation :
        Except GrabError GrabbedContent)
    | some buf =>
      Except.ok ⟨(((splitSep buf).drop (r.start - s1.lines.start)).take
        (r.stop - r.start)).map (fun c => ⟨g.source_id, c, none, none⟩)⟩) = _
  rw [readSpan, if_pos hread]

/-- C2 (amended): for a non-empty file of at most one read buffer
(64000 bytes), `get_entries` over the built metadata returns exactly `n`
elements that are the full-scan pieces at indices `[start, start + n)`. -/
theorem get_entries_roundtrip (g : Grabber) (md : GrabMetadata)
    (start n : Nat) (hmeta : g.metadata = some md) (hne : g.file ≠ [])
    (hlen : g.file.length ≤ metadataBufferSize) (hn : 1 ≤ n)
    (hmd : create_metadata_for_file g.file noShutdown = .item md)
    (hrange : start + n ≤ md.line_count) :
    get_entries g ⟨start, start + n⟩ =
      .ok ⟨(((splitSep g.file).drop start).take n).map
        (fun c => ⟨g.source_id, c, none, none⟩)⟩ ∧
    (((splitSep g.file).drop start).take n).length = n := by
  have hflen : g.file.length ≠ 0 := fun h0 => hne (List.length_eq_zero.mp h0)
  have hsmall := metaGo_small (g.file.length + 1) g.file noShutdown 0 0 0
    rfl rfl hne hlen (by omega)
  rw [create_metadata_for_file, hsmall] at hmd
  have hmd' : ComputationResult.item
      (⟨[⟨⟨0, 0 + g.file.length⟩, ⟨0, 0 + (g.file.count '\n' + 1)⟩⟩],
        0 + (g.file.count '\n' + 1)⟩ : GrabMetadata) = .item md := hmd
  have hmdv : md = ⟨[⟨⟨0, g.file.length⟩, ⟨0, g.file.count '\n' + 1⟩⟩],
      g.file.count '\n' + 1⟩ := by
    rw [← ComputationResult.item.inj hmd']
    norm_num
  have hlc : md.line_count = g.file.count '\n' + 1 := by
    rw [hmdv]
  have hid : ∀ k, k < g.file.count '\n' + 1 → identify_slot g k =
      some ⟨⟨0, g.file.length⟩, ⟨0, g.file.count '\n' + 1⟩⟩ := by
    intro k hk
    have hcont : slotContains
        ⟨⟨0, g.file.length⟩, ⟨0, g.file.count '\n' + 1⟩⟩ k = true := by
      rw [slotContains]
      simp only [Bool.and_eq_true, decide_eq_true_eq]
      exact ⟨Nat.zero_le k, hk⟩
    simp only [identify_slot, hmeta, hmdv]
    rw [if_neg (by simp)]
    simpa using identifyGo_singleton _ k hcont
  constructor
  · have hlt : start < start + n := by omega
    have hread0 : 0 + (g.file.length - 0) ≤ g.file.length := by omega
    have heval := get_entries_eval g ⟨start, start + n⟩
      ⟨⟨0, g.file.length⟩, ⟨0, g.file.count '\n' + 1⟩⟩
      ⟨⟨0, g.file.length⟩, ⟨0, g.file.count '\n' + 1⟩⟩
      hlt (hid start (by omega)) (hid (start + n - 1) (by omega)) hread0
    rw [heval]
    simp [List.take_length, Nat.add_sub_cancel_left]
  · rw [List.length_take, List.length_drop, splitSep_length]
    have hcle := count_le_countP_sep g.file
    omega

/-- C2 witness: the round trip at the concrete file `"a\nb"`,
`start = 1`, `n = 1`. -/
theorem get_entries_roundtrip_witness :
    (get_entries gW2 ⟨1, 1 + 1⟩ =
      .ok ⟨(((splitSep gW2.file).drop 1).take 1).map
        (fun c => ⟨gW2.source_id, c, none, none⟩)⟩) ∧
    (((splitSep gW2.file).drop 1).take 1).length = 1 :=
  get_entries_roundtrip gW2 md6 1 1 rfl (by decide) (by decide) (by decide)
    (by decide) (by decide)

/-- Byte length of the C2 counterexample file. -/
theorem cex_len : cexFile.length = 64002 := by
  rw [cexFile, List.length_append, List.length_replicate]
  rfl

/-- The counterexample file is non-empty. -/
theorem cex_ne : cexFile ≠ [] := by
  intro h
  have hl := cex_len
  rw [h] at hl
  exact absurd hl (by decide)

/-- First buffer read of the C2 counterexample file. -/
theorem cex_take : cexFile.take metadataBufferSize =
    List.replicate 63999 'a' ++ ['\n'] := by
  rw [cexFile, metadataBufferSize, List.take_append_eq_append_take,
    List.take_of_length_le (by rw [List.length_replicate]; omega),
    List.length_replicate]
  rfl

/-- Second buffer read of the C2 counterexample file. -/
theorem cex_drop : cexFile.drop metadataBufferSize = ['b', 'c'] := by
  rw [cexFile, metadataBufferSize, List.drop_append_eq_append_drop,
    List.drop_of_length_le (by rw [List.length_replicate]; omega),
    List.length_replicate]
  rfl

/-- No character of an `'a'`-run is a separator, and such runs hold no
newline. -/
theorem replicate_a_noSep (m : Nat) :
    ∀ c ∈ List.replicate m 'a', isSep c = false := by
  intro c hc
  rw [List.eq_of_mem_replicate hc]
  decide

theorem replicate_a_count (m : Nat) : (List.replicate m 'a').count '\n' = 0 := by
  rw [List.count_replicate]
  simp

/-- The metadata the builder produces for the counterexample file: two
slots, over-counted `line_count = 3` (the file has only two lines). -/
theorem cex_meta : create_metadata_for_file cexFile noShutdown = .item cexMd := by
  rw [create_metadata_for_file, metaGo_succ, if_neg (by simp [noShutdown]),
    if_neg cex_ne, cex_take, cex_drop]
  rw [List.count_append, replicate_a_count, List.length_append,
    List.length_replicate, List.length_singleton,
    (by rfl : List.count '\n' ['\n'] = 1)]
  rw [metaGo_small cexFile.length ['b', 'c'] noShutdown (0 + 1)
    (0 + (63999 + 1)) (0 + (0 + 1 + 1)) rfl rfl (by simp) (by decide)
    (by rw [cex_len]; omega)]
  rfl

/-- Splitting the first buffer of the counterexample file. -/
theorem cex_chunk_split : splitSep (List.replicate 63999 'a' ++ ['\n']) =
    [List.replicate 63999 'a', []] := by
  have h := splitSep_append_noSep (List.replicate 63999 'a') ['\n']
    (replicate_a_noSep 63999) [] [[]] (by decide)
  rw [List.append_nil] at h
  exact h

/-- Splitting the whole counterexample file from byte 0. -/
theorem cex_split : splitSep cexFile =
    [List.replicate 63999 'a', ['b', 'c']] := by
  have h := splitSep_append_noSep (List.replicate 63999 'a') ['\n', 'b', 'c']
    (replicate_a_noSep 63999) [] [['b', 'c']] (by decide)
  rw [List.append_nil] at h
  rw [cexFile, h]

/-- `get_entries` over the counterexample metadata returns the empty
trailing piece of slot 0 for line index 1. -/
theorem cex_get_entries :
    get_entries cexGrabber ⟨1, 2⟩ = .ok ⟨[⟨"src", [], none, none⟩]⟩ := by
  have hid : identify_slot cexGrabber 1 = some ⟨⟨0, 64000⟩, ⟨0, 2⟩⟩ := by decide
  have hlt12 : (1 : Nat) < 2 := by omega
  have hrd : (0 : Nat) + (64000 - 0) ≤ cexFile.length := by
    rw [cex_len]
    omega
  have heval := get_entries_eval cexGrabber ⟨1, 2⟩ ⟨⟨0, 64000⟩, ⟨0, 2⟩⟩
    ⟨⟨0, 64000⟩, ⟨0, 2⟩⟩ hlt12 hid hid hrd
  rw [heval, show cexGrabber.file = cexFile from rfl, List.drop_zero,
    show (64000 : Nat) - 0 = metadataBufferSize from rfl, cex_take,
    cex_chunk_split]
  rfl

/-- C2 counterexample: for the 64002-byte file the claim's hypotheses
hold (`n = 1 > 0`, `start + n = 2 ≤ line_count = 3`), yet `get_entries`
returns the empty string where the full scan from byte 0 has `"bc"`. -/
theorem get_entries_roundtrip_counterexample :
    cexFile ≠ [] ∧
    create_metadata_for_file cexFile noShutdown = .item cexMd ∧
    1 + 1 ≤ cexMd.line_count ∧
    get_entries cexGrabber ⟨1, 2⟩ = .ok ⟨[⟨"src", [], none, none⟩]⟩ ∧
    (splitSep cexFile).getD 1 [] = ['b', 'c'] ∧
    (⟨"src", [], none, none⟩ : GrabbedElement).content ≠ ['b', 'c'] := by
  refine ⟨cex_ne, cex_meta, by decide, cex_get_entries, ?_, by decide⟩
  rw [cex_split]
  rfl

/-- C5: the builder's buffer is `64 * 1000 = 64000` bytes, not
`DEFAULT_SLOT_SIZE = 64 * 1024`; a file of exactly `DEFAULT_SLOT_SIZE`
bytes is split into two slots (the first of 64000 bytes) instead of one. -/
theorem metadata_buffer_size_bug :
    metadataBufferSize = 64000 ∧ DEFAULT_SLOT_SIZE = 65536 ∧
    metadataBufferSize ≠ DEFAULT_SLOT_SIZE ∧
    create_metadata_for_file file5 noShutdown =
      .item ⟨[⟨⟨0, 64000⟩, ⟨0, 1⟩⟩, ⟨⟨64000, 65536⟩, ⟨1, 2⟩⟩], 2⟩ := by
  refine ⟨rfl, rfl, by decide, ?_⟩
  have hf5len : file5.length = 65536 := by
    rw [file5, List.length_replicate]
  have hf5ne : file5 ≠ [] := by
    intro h
    rw [h] at hf5len
    exact absurd hf5len (by decide)
  have htake : file5.take metadataBufferSize = List.replicate 64000 'a' := by
    rw [file5, metadataBufferSize, List.take_replicate]
    norm_num
  have hdrop : file5.drop metadataBufferSize = List.replicate 1536 'a' := by
    rw [file5, metadataBufferSize, List.drop_replicate]
  have hrep1536 : (List.replicate 1536 'a' : List Char) ≠ [] := by
    intro h
    have := congrArg List.length h
    rw [List.length_replicate] at this
    exact absurd this (by decide)
  rw [create_metadata_for_file, metaGo_succ, if_neg (by simp [noShutdown]),
    if_neg hf5ne, htake, hdrop, replicate_a_count, List.length_replicate]
  rw [metaGo_small file5.length (List.replicate 1536 'a') noShutdown (0 + 1)
    (0 + 64000) (0 + (0 + 1)) rfl rfl hrep1536
    (by rw [List.length_replicate, metadataBufferSize]; omega)
    (by rw [hf5len]; omega)]
  rw [replicate_a_count, List.length_replicate]

/-- C7: `get_search_len` returns `line_count - 1` when a search grabber
with metadata exists, and `0` when there is no search grabber and no
pending search metadata. -/
theorem get_search_len_spec (s : Session) :
    (∀ g md, s.search_grabber = some g → g.metadata = some md →
      get_search_len s = (.ok ((md.line_count : Int) - 1), s)) ∧
    (s.search_grabber = none → s.search_metadata_channel = ChanState.empty →
      get_search_len s = (.ok 0, s)) := by
  constructor
  · intro g md hg hmd
    rw [get_search_len, get_search_grabber, hg]
    simp only [getMetadata, hmd]
  · intro hg hch
    rw [get_search_len, get_search_grabber, hg, hch]

/-- C7 witness: both branches at concrete sessions. -/
theorem get_search_len_spec_witness :
    get_search_len sW = (.ok ((mdS.line_count : Int) - 1), sW) ∧
    get_search_len sEmptySearch = (.ok 0, sEmptySearch) :=
  ⟨(get_search_len_spec sW).1 gS mdS rfl rfl,
   (get_search_len_spec sEmptySearch).2 rfl rfl⟩

/-- Wrapping `u64` subtraction of 1 agrees with `Nat` subtraction for
values in `[1, 2^64)`. -/
theorem u64sub_one (p : Nat) (h1 : 1 ≤ p) (h2 : p < 2 ^ 64) :
    u64sub p 1 = p - 1 := by
  rw [u64sub]
  have hpow : (2 : Nat) ^ 64 = 18446744073709551616 := by norm_num
  rw [hpow] at h2 ⊢
  omega

/-- A successful `u64` parse is below `2^64`. -/
theorem parseU64_lt (s : List Char) (v : Nat) (h : parseU64 s = some v) :
    v < 2 ^ 64 := by
  simp only [parseU64] at h
  split at h
  · exact absurd h (by simp)
  · split at h
    · exact absurd h (by simp)
    · split at h
      · rename_i hv
        rw [← Option.some.injEq v _ |>.mp h.symm] at hv
        exact hv
      · exact absurd h (by simp)

/-- Every position produced by `parseAll` is below `2^64`. -/
theorem parseAll_bounds :
    ∀ (els : List GrabbedElement) (ps : List Nat), parseAll els = some ps →
      ∀ p ∈ ps, p < 2 ^ 64 := by
  intro els
  induction els with
  | nil =>
    intro ps h p hp
    rw [parseAll] at h
    rw [← Option.some.injEq _ _ |>.mp h] at hp
    simp at hp
  | cons el rest ih =>
    intro ps h p hp
    rw [parseAll] at h
    rcases hpe : parseU64 el.content with _ | q <;> rw [hpe] at h
    · exact absurd h (by simp)
    · rcases hpa : parseAll rest with _ | qs <;> rw [hpa] at h
      · exact absurd h (by simp)
      · rw [← Option.some.injEq _ _ |>.mp h] at hp
        rcases List.mem_cons.mp hp with hq | hq
        · rw [hq]
          exact parseU64_lt el.content q hpe
        · exact ih qs hpa p hq

/-- Endpoint bounds of the maximal runs. -/
theorem maximalRunsGo_bounds (rest : List Nat) :
    ∀ a b, 1 ≤ a → a ≤ b → b < 2 ^ 64 →
      (∀ q ∈ rest, 1 ≤ q ∧ q < 2 ^ 64) →
      ∀ r ∈ maximalRunsGo a b rest, 1 ≤ r.1 ∧ r.1 ≤ r.2 ∧ r.2 < 2 ^ 64 := by
  induction rest with
  | nil =>
    intro a b h1 hab hb _ r hr
    simp only [maximalRunsGo, List.mem_singleton] at hr
    rw [hr]
    exact ⟨h1, hab, hb⟩
  | cons q rest ih =>
    intro a b h1 hab hb hrest r hr
    have hq := hrest q (by simp)
    simp only [maximalRunsGo] at hr
    by_cases hqb : q = b + 1
    · rw [if_pos hqb] at hr
      exact ih a q h1 (by omega) hq.2 (fun x hx => hrest x (by simp [hx])) r hr
    · rw [if_neg hqb] at hr
      rcases List.mem_cons.mp hr with h | h
      · rw [h]
        exact ⟨h1, hab, hb⟩
      · exact ih q q hq.1 (Nat.le_refl q) hq.2
          (fun x hx => hrest x (by simp [hx])) r h

/-- The coalescing loop followed by the final flush produces exactly the
maximal runs, each shifted down by one. -/
theorem coalesceLoop_flush (rest : List Nat) :
    ∀ a b acc acc' fp tp, 1 ≤ a → a ≤ b → b < 2 ^ 64 →
      (∀ q ∈ rest, 1 ≤ q ∧ q < 2 ^ 64) →
      List.Chain' (· < ·) (b :: rest) →
      (∀ r ∈ acc, r.1 + 1 < a) →
      coalesceLoop rest a b acc = (acc', fp, tp) →
      (match acc'.getLast? with
       | some r =>
         if r.1 ≠ fp then acc' ++ [(u64sub fp 1, u64sub tp 1)] else acc'
       | none => acc' ++ [(u64sub fp 1, u64sub tp 1)]) =
      acc ++ (maximalRunsGo a b rest).map (fun r => (r.1 - 1, r.2 - 1)) := by
  induction rest with
  | nil =>
    intro a b acc acc' fp tp h1 hab hb _ _ hacc hloop
    rw [coalesceLoop] at hloop
    have ha' : acc = acc' := congrArg Prod.fst hloop
    have hfp : a = fp := congrArg (fun x => x.2.1) hloop
    have htp : b = tp := congrArg (fun x => x.2.2) hloop
    rw [← ha', ← hfp, ← htp]
    have hshift : [(u64sub a 1, u64sub b 1)] = [(a - 1, b - 1)] := by
      rw [u64sub_one a h1 (by omega), u64sub_one b (by omega) hb]
    rcases hl : acc.getLast? with _ | r
    · show acc ++ [(u64sub a 1, u64sub b 1)] =
        acc ++ (maximalRunsGo a b []).map (fun r => (r.1 - 1, r.2 - 1))
      rw [hshift]
      rfl
    · have hrmem : r ∈ acc := by
        obtain ⟨hne, heq⟩ := List.mem_getLast?_eq_getLast (by
          rw [Option.mem_def]
          exact hl)
        rw [heq]
        exact List.getLast_mem hne
      have hne : r.1 ≠ a := by
        have := hacc r hrmem
        omega
      show (if r.1 ≠ a then acc ++ [(u64sub a 1, u64sub b 1)] else acc) =
        acc ++ (maximalRunsGo a b []).map (fun r => (r.1 - 1, r.2 - 1))
      rw [if_pos hne, hshift]
      rfl
  | cons q rest ih =>
    intro a b acc acc' fp tp h1 hab hb hrest hch hacc hloop
    have hq := hrest q (by simp)
    have hrest' : ∀ x ∈ rest, 1 ≤ x ∧ x < 2 ^ 64 :=
      fun x hx => hrest x (by simp [hx])
    have hbq : b < q := (List.chain'_cons.mp hch).1
    have hch' : List.Chain' (· < ·) (q :: rest) := (List.chain'_cons.mp hch).2
    rw [coalesceLoop] at hloop
    have hmod : (b + 1) % 2 ^ 64 = b + 1 := Nat.mod_eq_of_lt (by omega)
    rw [hmod] at hloop
    by_cases hqb : q = b + 1
    · rw [if_neg (by omega)] at hloop
      simp only [maximalRunsGo, if_pos hqb]
      exact ih a q acc acc' fp tp h1 (by omega) hq.2 hrest' hch' hacc hloop
    · rw [if_pos (by omega)] at hloop
      simp only [maximalRunsGo, if_neg hqb]
      have haccinv : ∀ r ∈ acc ++ [(u64sub a 1, u64sub b 1)], r.1 + 1 < q := by
        intro r hr
        rcases List.mem_append.mp hr with h | h
        · have := hacc r h
          omega
        · rw [List.mem_singleton] at h
          rw [h, u64sub_one a h1 (by omega)]
          omega
      have hstep := ih q q (acc ++ [(u64sub a 1, u64sub b 1)]) acc' fp tp
        hq.1 (Nat.le_refl q) hq.2 hrest' hch' haccinv hloop
      rw [hstep, u64sub_one a h1 (by omega), u64sub_one b (by omega) hb]
      simp

/-- The code's coalescing equals the spec's maximal runs, shifted by
one, for strictly ascending positive positions. -/
theorem coalesce_eq_runs (ps : List Nat)
    (hps : ∀ q ∈ ps, 1 ≤ q ∧ q < 2 ^ 64)
    (hch : List.Chain' (· < ·) ps) :
    coalesce ps = (maximalRuns ps).map (fun r => (r.1 - 1, r.2 - 1)) := by
  cases ps with
  | nil => rfl
  | cons p rest =>
    have hp := hps p (by simp)
    rcases hloop : coalesceLoop rest p p [] with ⟨acc', fptp⟩
    obtain ⟨fp, tp⟩ := fptp
    have h := coalesceLoop_flush rest p p [] acc' fp tp hp.1 (Nat.le_refl p)
      hp.2 (fun x hx => hps x (by simp [hx])) hch (by simp) hloop
    simp only [coalesce, hloop, maximalRuns]
    rw [List.nil_append] at h
    exact h

/-- When the content grabber is assigned, holds metadata, and the
content-metadata channel is empty, `get_content_grabber` reuses the
cached grabber and leaves the session unchanged. -/
theorem get_content_grabber_cached (s : Session) (gc : Grabber)
    (mdc : GrabMetadata) (hcg : s.content_grabber = some gc)
    (hchan : s.content_metadata_channel = ChanState.empty)
    (hmdc : gc.metadata = some mdc) :
    get_content_grabber s = (.ok gc, s) := by
  simp only [get_content_grabber, hcg, hchan, hmdc]

/-- The per-range loop of `grab_search` over down-shifted runs equals
the spec-side composition `grabSearchSpec`. -/
theorem grabRanges_eq_spec (s : Session) (gc : Grabber) (mdc : GrabMetadata)
    (hcg : s.content_grabber = some gc)
    (hchan : s.content_metadata_channel = ChanState.empty)
    (hmdc : gc.metadata = some mdc) :
    ∀ (runs : List (Nat × Nat)) (row : Nat) (acc : List GrabbedElement),
      (∀ r ∈ runs, 1 ≤ r.1 ∧ r.1 ≤ r.2 ∧ r.2 < 2 ^ 64) →
      grabRanges s (runs.map (fun r => (r.1 - 1, r.2 - 1))) row acc =
        (match grabSearchSpec gc row runs with
         | .ok c => (.ok ⟨acc ++ c.grabbed_elements⟩, s)
         | .error e => (.error e, s)) := by
  intro runs
  induction runs with
  | nil =>
    intro row acc _
    simp [grabRanges, grabSearchSpec]
  | cons r rest ih =>
    intro row acc hb
    obtain ⟨a, b⟩ := r
    have hab := hb (a, b) (by simp)
    have hpow : (2 : Nat) ^ 64 = 18446744073709551616 := by norm_num
    have hfrom : LineRange.fromInclusive (a - 1) (b - 1) = ⟨a - 1, (b - 1) + 1⟩ := by
      rw [LineRange.fromInclusive]
      have : ((b - 1) + 1) % 2 ^ 64 = (b - 1) + 1 :=
        Nat.mod_eq_of_lt (by omega)
      rw [this]
    rcases hge : get_entries gc ⟨a - 1, (b - 1) + 1⟩ with e | oc
    · simp only [List.map_cons, grabRanges,
        get_content_grabber_cached s gc mdc hcg hchan hmdc, hfrom, hge,
        grabSearchSpec]
    · have hih := ih (row + oc.grabbed_elements.length)
        (acc ++ oc.grabbed_elements.enum.map
          (fun je => { je.2 with
            pos := some (a - 1 + je.1), row := some (row + je.1) }))
        (fun r hr => hb r (List.mem_cons_of_mem _ hr))
      simp only [List.map_cons, grabRanges,
        get_content_grabber_cached s gc mdc hcg hchan hmdc, hfrom, hge,
        grabSearchSpec]
      rw [hih]
      rcases hgs : grabSearchSpec gc (row + oc.grabbed_elements.length) rest
        with e | tail <;> simp

/-- C8 (amended): when every grabbed search line parses as `u64`, the
parsed sequence is strictly ascending, and every index is at least 1,
`grab_search` invokes the content grabber once per maximal run `[a, b]`
with the inclusive shifted range `[a - 1, b - 1]`, concatenating the
annotated results in run order with consecutive rows from the requested
start (it coincides with the spec-side composition `grabSearchSpec`). -/
theorem grab_search_coalesces (s : Session) (gs gc : Grabber)
    (mds mdc : GrabMetadata) (startLine n : Nat)
    (els : List GrabbedElement) (ps : List Nat)
    (hsg : s.search_grabber = some gs) (hmds : gs.metadata = some mds)
    (hcg : s.content_grabber = some gc) (hmdc : gc.metadata = some mdc)
    (hchan : s.content_metadata_channel = ChanState.empty)
    (hgrab : get_entries gs
      (LineRange.fromInclusive startLine (startLine + n - 1)) = .ok ⟨els⟩)
    (hparse : parseAll els = some ps)
    (hpos : ∀ p ∈ ps, 1 ≤ p)
    (hasc : List.Chain' (· < ·) ps) :
    grab_search s startLine n =
      (grabSearchSpec gc startLine (maximalRuns ps), s) := by
  have hps : ∀ q ∈ ps, 1 ≤ q ∧ q < 2 ^ 64 :=
    fun q hq => ⟨hpos q hq, parseAll_bounds els ps hparse q hq⟩
  have hsearch : get_search_grabber s = (.ok (some gs), s) := by
    simp only [get_search_grabber, hsg, getMetadata, hmds]
  simp only [grab_search, hsearch, hgrab, hparse]
  rw [coalesce_eq_runs ps hps hasc]
  have hbounds : ∀ r ∈ maximalRuns ps, 1 ≤ r.1 ∧ r.1 ≤ r.2 ∧ r.2 < 2 ^ 64 := by
    cases ps with
    | nil => simp [maximalRuns]
    | cons p rest =>
      exact maximalRunsGo_bounds rest p p (hps p (by simp)).1 (Nat.le_refl p)
        (hps p (by simp)).2 (fun x hx => hps x (by simp [hx]))
  rw [grabRanges_eq_spec s gc mdc hcg hchan hmdc (maximalRuns ps) startLine []
    hbounds]
  rcases hspec : grabSearchSpec gc startLine (maximalRuns ps) with e | c
  · rfl
  · simp

/-- C8 counterexample: with grabbed lines `"0"`, `"1"` (all parse, and
`[0, 1]` is strictly ascending) the unguarded shift wraps, the computed
range is `[2^64 - 1, 0]`, and `grab_search` fails with `Communication`
instead of returning the concatenated run contents. -/
theorem grab_search_coalesces_counterexample :
    get_entries gS0 (LineRange.fromInclusive 0 (0 + 2 - 1)) =
      .ok ⟨[⟨"search_results", ['0'], none, none⟩,
            ⟨"search_results", ['1'], none, none⟩]⟩ ∧
    parseAll [⟨"search_results", ['0'], none, none⟩,
              ⟨"search_results", ['1'], none, none⟩] = some [0, 1] ∧
    List.Chain' (· < ·) [0, 1] ∧
    (grab_search sC8 0 2).1 = .error .Communication := by
  refine ⟨by decide, by decide, List.chain'_pair.mpr (by omega), by decide⟩

/-- C8 witness: the amended statement at a concrete session with
matches `1`, `2`, `4` (runs `[1,2]` and `[4,4]`). -/
theorem grab_search_coalesces_witness :
    grab_search sW 0 3 = (grabSearchSpec gC 0 (maximalRuns [1, 2, 4]), sW) :=
  grab_search_coalesces sW gS gC mdS mdC 0 3
    [⟨"search_results", ['1'], none, none⟩,
     ⟨"search_results", ['2'], none, none⟩,
     ⟨"search_results", ['4'], none, none⟩] [1, 2, 4]
    rfl rfl rfl rfl rfl (by decide) (by decide) (by decide)
    (List.Chain.cons (by omega) (List.Chain.cons (by omega) List.Chain.nil))

/-- C9: the unguarded `from_pos - 1` wraps on `u64` when the first
recorded match index is `0`: the coalesced range becomes
`[2^64 - 1, 2^64 - 1]` instead of the intended `[-1, -1]`, and
`grab_search` on such a results file fails instead of serving the match;
with all indices ≥ 1 no wrap occurs. -/
theorem coalesce_underflow :
    coalesce [0] = [(2 ^ 64 - 1, 2 ^ 64 - 1)] ∧
    coalesce [1, 2] = [(0, 1)] ∧
    (grab_search s9 0 1).1 = .error .Communication := by decide

/-- C10: `search` clears the search grabber before checking for assigned
content, so failing with `NoAssignedContent` still discards the previous
search grabber. -/
theorem search_discards_search_grabber (s : Session)
    (filters : List SearchFilter) (opId : String)
    (h : s.content_grabber = none) :
    sessionSearch s filters opId =
      (.error .NoAssignedContent, { s with search_grabber := none }) ∧
    ((sessionSearch s filters opId).2).search_grabber = none := by
  have h₁ : sessionSearch s filters opId =
      (.error .NoAssignedContent, { s with search_grabber := none }) := by
    rw [sessionSearch]
    simp only [h]
  exact ⟨h₁, by rw [h₁]⟩

/-- C10 witness: a session holding a search grabber but no content
grabber loses the search grabber on the failing `search` call. -/
theorem search_discards_search_grabber_witness :
    sessionSearch s10 [] "op" =
      (.error .NoAssignedContent, { s10 with search_grabber := none }) ∧
    ((sessionSearch s10 [] "op").2).search_grabber = none :=
  search_discards_search_grabber s10 [] "op" rfl

end Chipmunk
